import Mathlib

/-!
Shallow embedding of `src/paths.ts` (the path/URI mapper of vscode-php-debug):
`convertDebuggerPathToClient`, `convertClientPathToDebugger`, `isWindowsUri`
and `isSameUri`, together with models of the library routines they call
(Node's `path.posix` / `path.win32` / legacy `url`, the `file-url`,
`urlencode` and `relateurl` packages).

Strings are modelled as `List Char` (`Str`) internally; the embedded public
functions take and return `String` like the source.  JavaScript string
functions are modelled character-exactly on ASCII (the case folds of
`toLowerCase` outside ASCII are not modelled; no claim exercises them).
Node's `path.posix` functions are modelled for absolute arguments (Node
resolves relative arguments against the process working directory); the
`path.win32` functions take the working directory `cwd` explicitly, since
rooted device-less paths such as `/C:/x` do consult it.  UNC device paths
(`\\server\share`) are outside the model.
-/

namespace Paths

/-- JavaScript strings, modelled as their list of characters. -/
abbrev Str := List Char

/-- Split on a separator character, like `String.prototype.split`. -/
def splitOnChar (sep : Char) : Str → List Str
  | [] => [[]]
  | c :: rest =>
    match splitOnChar sep rest with
    | [] => [[]]
    | s :: ss => if c = sep then [] :: s :: ss else (c :: s) :: ss

/-- Join segments with a separator (left inverse of `splitOnChar`). -/
def joinSep (sep : Char) : List Str → Str
  | [] => []
  | [x] => x
  | x :: xs => x ++ sep :: joinSep sep xs

/-- Characters before the first one satisfying `p`, and the rest. -/
def spanUntil (p : Char → Bool) : Str → Str × Str
  | [] => ([], [])
  | c :: rest =>
    if p c then ([], c :: rest)
    else
      let (a, b) := spanUntil p rest
      (c :: a, b)

/-- Length of the longest common prefix of two segment lists. -/
def commonPrefixLen : List Str → List Str → Nat
  | a :: as, b :: bs => if a = b then commonPrefixLen as bs + 1 else 0
  | _, _ => 0

/-- `[A-Za-z]` of the source's regular expressions. -/
def asciiLetter (c : Char) : Bool :=
  decide ('A' ≤ c ∧ c ≤ 'Z') || decide ('a' ≤ c ∧ c ≤ 'z')

/-- Model of `String.prototype.toLowerCase`, faithful on ASCII. -/
def jsLower (s : Str) : Str := s.map Char.toLower

/-- Model of `.replace(/^[A-Z]:\\/, match => match.toLowerCase())`
(src/paths.ts:76, 92, 95). -/
def lowerDriveBack (s : Str) : Str :=
  match s with
  | c :: ':' :: '\\' :: rest =>
    if 'A' ≤ c ∧ c ≤ 'Z' then c.toLower :: ':' :: '\\' :: rest else s
  | _ => s

/-! ## path.posix -/

/-- Node `normalizeString` for an absolute path: drop empty and `.` segments,
let `..` pop the previous segment (and vanish at the root). -/
def resolveSegsA (segs : List Str) : List Str :=
  segs.foldl
    (fun acc s =>
      if s = [] ∨ s = ['.'] then acc
      else if s = ['.', '.'] then acc.dropLast
      else acc ++ [s])
    []

/-- Model of `path.posix.resolve` on one path, faithful for absolute
arguments (a relative argument would be resolved against the process
working directory, outside this model). -/
def posixResolveOne (p : Str) : Str :=
  '/' :: joinSep '/' (resolveSegsA (splitOnChar '/' p))

/-- Model of `path.posix.relative` (lib/path.js) for absolute arguments:
resolve both paths, drop the common segment prefix, climb with `..` and
descend with the remainder. -/
def posixRelative (f t : Str) : Str :=
  let fs := resolveSegsA (splitOnChar '/' f)
  let ts := resolveSegsA (splitOnChar '/' t)
  let c := commonPrefixLen fs ts
  joinSep '/' (List.replicate (fs.length - c) ['.', '.'] ++ ts.drop c)

/-- Model of `path.posix.resolve(base, p)` for an absolute `base`. -/
def posixResolveTwo (base p : Str) : Str :=
  if p.head? = some '/' then posixResolveOne p
  else posixResolveOne (base ++ '/' :: p)

/-- Node `normalizeString` with `allowAboveRoot`: leading `..` segments are
kept for relative paths and dropped for absolute ones. -/
def normSegs (allowUp : Bool) (segs : List Str) : List Str :=
  segs.foldl
    (fun acc s =>
      if s = [] ∨ s = ['.'] then acc
      else if s = ['.', '.'] then
        match acc.getLast? with
        | some l => if l = ['.', '.'] then acc ++ [s] else acc.dropLast
        | none => if allowUp then [s] else []
      else acc ++ [s])
    []

/-- Model of `path.posix.normalize`. -/
def posixNormalize (p : Str) : Str :=
  if p = [] then ['.']
  else
    let isAbs := p.head? = some '/'
    let trail := p.getLast? = some '/'
    let path0 := joinSep '/' (normSegs (decide ¬isAbs) (splitOnChar '/' p))
    let path1 := if path0 = [] ∧ ¬isAbs then ['.'] else path0
    let path2 := if path1 ≠ [] ∧ trail then path1 ++ ['/'] else path1
    if isAbs then '/' :: path2 else path2

/-! ## path.win32 -/

/-- Both Windows path separators. -/
def isWinSep (c : Char) : Bool := c == '/' || c == '\\'

/-- Split a leading drive-letter device (`C:`) off a Windows path.  UNC
device paths are outside this model. -/
def winSplitDevice (p : Str) : Str × Str :=
  match p with
  | c :: ':' :: rest => if asciiLetter c then ([c, ':'], rest) else ([], p)
  | _ => ([], p)

/-- Raw segments of the part of a Windows path after its device. -/
def winSegsOf (s : Str) : List Str :=
  splitOnChar '/' (s.map fun c => if c = '\\' then '/' else c)

/-- State of Node `path.win32.resolve`'s right-to-left argument scan. -/
structure WinSt where
  dev : Str
  absFound : Bool
  tail : List Str

/-- One argument step of Node `path.win32.resolve` (arguments processed from
the last towards the first, then the working directory). -/
def winStep (st : WinSt) (p : Str) : WinSt :=
  if p = [] then st
  else
    let (d, rest) := winSplitDevice p
    let pAbs := (rest.head?.map isWinSep).getD false
    if st.dev ≠ [] ∧ d ≠ [] ∧ jsLower d ≠ jsLower st.dev then st
    else
      let dev := if st.dev = [] then d else st.dev
      if st.absFound then { st with dev }
      else { dev, absFound := pAbs, tail := winSegsOf rest ++ st.tail }

/-- Device and resolved segments of `path.win32.resolve(...args)`, with the
working directory as the final fallback argument. -/
def winResolveParts (cwd : Str) (args : List Str) : Str × List Str :=
  let st := args.reverse.foldl winStep ⟨[], false, []⟩
  let st := winStep st cwd
  (st.dev, resolveSegsA st.tail)

/-- Model of `path.win32.resolve(...args)` (assumes `cwd` is an absolute
device path, as `process.cwd()` is). -/
def winResolveStr (cwd : Str) (args : List Str) : Str :=
  let (d, segs) := winResolveParts cwd args
  d ++ '\\' :: joinSep '\\' segs

/-- Case-fold every segment. -/
def lowerSegs (l : List Str) : List Str := l.map jsLower

/-- Model of `path.win32.relative`: resolve both paths, compare
case-insensitively; with different devices the resolved `to` is returned
unchanged (Node returns `toOrig`). -/
def winRelative (cwd f t : Str) : Str :=
  let (fd, fs) := winResolveParts cwd [f]
  let (td, ts) := winResolveParts cwd [t]
  if jsLower fd ≠ jsLower td then td ++ '\\' :: joinSep '\\' ts
  else if lowerSegs fs = lowerSegs ts then []
  else
    let c := commonPrefixLen (lowerSegs fs) (lowerSegs ts)
    joinSep '\\' (List.replicate (fs.length - c) ['.', '.'] ++ ts.drop c)

/-- Model of `path.win32.normalize`. -/
def winNormalize (p : Str) : Str :=
  let (dev, rest) := winSplitDevice p
  if rest = [] then dev ++ ['.']
  else
    let isAbs := (rest.head?.map isWinSep).getD false
    let trail := (rest.getLast?.map isWinSep).getD false
    let path0 := joinSep '\\' (normSegs (!isAbs) (winSegsOf rest))
    let path1 := if path0 = [] ∧ isAbs = false then ['.'] else path0
    let path2 := if path1 ≠ [] ∧ trail then path1 ++ ['\\'] else path1
    dev ++ (if isAbs then '\\' :: path2 else path2)

/-! ## urlencode.decode and file-url -/

/-- Value of one hexadecimal digit. -/
def hexVal (c : Char) : Option Nat :=
  if '0' ≤ c ∧ c ≤ '9' then some (c.toNat - '0'.toNat)
  else if 'a' ≤ c ∧ c ≤ 'f' then some (c.toNat - 'a'.toNat + 10)
  else if 'A' ≤ c ∧ c ≤ 'F' then some (c.toNat - 'A'.toNat + 10)
  else none

/-- Model of `urlencode`'s `decode` (`decodeURIComponent`): a percent escape
decodes to the escaped byte, anything else passes through.  Faithful for
ASCII escapes (a multi-byte UTF-8 sequence decodes to one char per byte
here). -/
def pctDecode : Str → Str
  | '%' :: h :: l :: rest =>
    match hexVal h, hexVal l with
    | some a, some b => Char.ofNat (16 * a + b) :: pctDecode rest
    | _, _ => '%' :: pctDecode (h :: l :: rest)
  | c :: rest => c :: pctDecode rest
  | [] => []

/-- Uppercase hexadecimal digit, as `encodeURI` emits. -/
def hexDigitUp (n : Nat) : Char :=
  if n < 10 then Char.ofNat ('0'.toNat + n) else Char.ofNat ('A'.toNat + n - 10)

/-- `encodeURI`'s unescaped set minus `?` and `#`, which the file-url package
percent-encodes afterwards. -/
def fileUrlPlain (c : Char) : Bool :=
  asciiLetter c || decide ('0' ≤ c ∧ c ≤ '9') ||
    ['-', '_', '.', '!', '~', '*', Char.ofNat 39, '(', ')',
      ';', '/', ':', '@', '&', '=', '+', '$', ','].contains c

/-- Percent-encode one byte. -/
def pctByte (n : Nat) : Str := ['%', hexDigitUp (n / 16 % 16), hexDigitUp (n % 16)]

/-- Model of the `file-url` package with `{resolve: false}`: backslashes to
slashes, a leading slash ensured, `file://` prefixed, `encodeURI`, then `?`
and `#` percent-encoded. -/
def fileUrl (p : Str) : Str :=
  let p1 := p.map fun c => if c = '\\' then '/' else c
  let p2 := if p1.head? = some '/' then p1 else '/' :: p1
  ("file://".data ++ p2).flatMap fun c =>
    if fileUrlPlain c then [c] else (String.utf8EncodeChar c).flatMap fun b => pctByte b.toNat

/-! ## legacy url.parse / url.resolve and relateurl -/

/-- The pieces of a parsed URL that the mapper reads. -/
structure UrlParts where
  protocol : Str
  auth : Str
  pathname : Str
  search : Str
  hash : Str

/-- A scheme character of `scheme://`. -/
def schemeChar (c : Char) : Bool :=
  asciiLetter c || decide ('0' ≤ c ∧ c ≤ '9') || c == '+' || c == '-' || c == '.'

/-- Split `scheme://` off the head: `(scheme, remainder)`. -/
def splitScheme : Str → Option (Str × Str)
  | [] => none
  | c :: rest =>
    if c = ':' ∧ rest.take 2 = ['/', '/'] then some ([], rest.drop 2)
    else if schemeChar c then (splitScheme rest).map fun (a, b) => (c :: a, b)
    else none

/-- Model of legacy Node `url.parse` for `scheme://…` URLs: enough to give
`pathname`, `search` and `hash` (host case-folding is not modelled; the
mapper reads only `pathname`). -/
def urlParse (s : Str) : UrlParts :=
  match splitScheme s with
  | none =>
    let (path, rest) := spanUntil (fun c => c == '?' || c == '#') s
    let (search, hash) := spanUntil (fun c => c == '#') rest
    { protocol := [], auth := [], pathname := path, search, hash }
  | some (sch, rest) =>
    let (auth, rest2) := spanUntil (fun c => c == '/' || c == '?' || c == '#') rest
    let (path, rest3) := spanUntil (fun c => c == '?' || c == '#') rest2
    let (search, hash) := spanUntil (fun c => c == '#') rest3
    { protocol := sch, auth, pathname := path, search, hash }

/-- Directory segments and filename of a URL pathname (the pathname's
split, last part as filename). -/
def dirsAndFile (path : Str) : List Str × Str :=
  let parts := splitOnChar '/' path
  (parts.dropLast, parts.getLastD [])

/-- The `../`-climb and descend of relateurl's PATH_RELATIVE output. -/
def relateSegs (fd td : List Str) (tf : Str) : Str :=
  let c := commonPrefixLen fd td
  joinSep '/' (List.replicate (fd.length - c) ['.', '.'] ++ td.drop c ++ [tf])

/-- Model of `RelateUrl.relate` under RELATE_URL_OPTIONS (output
PATH_RELATIVE, removeRootTrailingSlash false, defaultPorts {}).  The
library's `removeDirectoryIndexes` default (true, indexes `["index.html"]`)
still applies and drops a final `index.html` segment.  URLs that differ in
scheme or authority cannot be related path-relatively and are returned
absolute (the mapper only relates `file:///` URLs built by `fileUrl`). -/
def relativeUrl (f t : Str) : Str :=
  let fu := urlParse f
  let tu := urlParse t
  if fu.protocol ≠ tu.protocol ∨ fu.auth ≠ tu.auth then t
  else
    let (fd, _) := dirsAndFile fu.pathname
    let (td, tf) := dirsAndFile tu.pathname
    let tf := if tf = "index.html".data then [] else tf
    relateSegs fd td tf ++ tu.search ++ tu.hash

/-- One segment of RFC 3986 `remove_dot_segments`: `.` vanishes, `..` pops,
anything else is appended. -/
def rfcStep (acc : List Str) (s : Str) : List Str :=
  if s = ['.'] then acc
  else if s = ['.', '.'] then acc.dropLast
  else acc ++ [s]

/-- RFC 3986 `remove_dot_segments` over split path segments. -/
def rfcMergeSegs (segs : List Str) : List Str := segs.foldl rfcStep []

/-- `remove_dot_segments` keeping the trailing slash a final `.` or `..`
stands for. -/
def resolveDotSegs (segs : List Str) : List Str :=
  let core := rfcMergeSegs segs
  if segs.getLast? = some ['.'] ∨ segs.getLast? = some ['.', '.'] then core ++ [[]]
  else core

/-- Everything of a pathname up to and including its last slash. -/
def dirnameSlash (p : Str) : Str := (p.reverse.dropWhile (· != '/')).reverse

/-- Model of legacy Node `url.resolve` for the references the mapper
produces: empty, absolute, root-relative and path-relative references
against a `scheme://auth/…` base. -/
def urlResolve (base rel : Str) : Str :=
  if rel = [] then base
  else if (splitScheme rel).isSome then rel
  else
    let b := urlParse base
    let pre := b.protocol ++ ':' :: '/' :: '/' :: b.auth
    let (rp, qs) := spanUntil (fun c => c == '?' || c == '#') rel
    let merged := if rp.head? = some '/' then rp else dirnameSlash b.pathname ++ rp
    let segs := splitOnChar '/' merged
    let segs := if segs.head? = some [] then segs.tail else segs
    pre ++ '/' :: joinSep '/' (resolveDotSegs segs) ++ qs

/-! ## The embedded functions of src/paths.ts -/

/-- The `/^\/[a-zA-Z]:\//` test of `convertDebuggerPathToClient`
(src/paths.ts:39). -/
def serverPathIsWindows (p : Str) : Bool :=
  match p with
  | '/' :: c :: ':' :: '/' :: _ => asciiLetter c
  | _ => false

/-- `serverRelative.indexOf('..') !== 0` — the root-matching test both
conversion functions apply to a computed relative path. -/
def notDotDot (rel : Str) : Bool := !(['.', '.'].isPrefixOf rel)

/-- The OS-appropriate `path.relative`, selected by the serverIsWindows flag
(src/paths.ts:47, 58). -/
def osRelative (win : Bool) (cwd f t : Str) : Str :=
  if win then winRelative cwd f t else posixRelative f t

/-- The `for … of Object.keys(pathMapping)` loop with `break`: the first
entry satisfying the condition.  The list models the JS object's ordered
(non-numeric, hence insertion-ordered) keys. -/
def findMapping (cond : String × String → Bool) :
    List (String × String) → Option (String × String)
  | [] => none
  | kv :: rest => if cond kv then some kv else findMapping cond rest

/-- Shallow embedding of `convertDebuggerPathToClient` (src/paths.ts:27-68).
`platformIsWindows` selects the native `path` module used by
`path.resolve`/`path.normalize`; `cwd` is the process working directory
`path.win32.resolve` may consult.  An absent `pathMapping` is the empty
list.  The `if (serverSourceRoot && localSourceRoot)` truthiness check means
an empty matched key or value falls back to the normalize branch. -/
def convertDebuggerPathToClient (platformIsWindows : Bool) (cwd : String)
    (fileUri : String) (pathMapping : List (String × String)) : String :=
  let parsed := urlParse fileUri.data
  let decoded := pctDecode parsed.pathname
  let isWin := serverPathIsWindows decoded
  let serverPath := if isWin then decoded.tail else decoded
  let hit := findMapping
    (fun kv => notDotDot (osRelative isWin cwd.data kv.1.data serverPath)) pathMapping
  match hit with
  | some (sroot, lroot) =>
    if sroot ≠ "" ∧ lroot ≠ "" then
      let rel := osRelative isWin cwd.data sroot.data serverPath
      String.mk (if platformIsWindows then winResolveStr cwd.data [lroot.data, rel]
                 else posixResolveTwo lroot.data rel)
    else
      String.mk (if platformIsWindows then winNormalize serverPath
                 else posixNormalize serverPath)
  | none =>
    String.mk (if platformIsWindows then winNormalize serverPath
               else posixNormalize serverPath)

/-- Shallow embedding of `convertClientPathToDebugger` (src/paths.ts:71-114).
The root-matching loop uses the native `path.relative`; a matched empty key
or value is falsy in the source's `if (serverSourceRoot && localSourceRoot)`
and falls back to the plain file URL. -/
def convertClientPathToDebugger (platformIsWindows : Bool) (cwd : String)
    (localPath : String) (pathMapping : List (String × String)) : String :=
  let localFileUri := fileUrl (lowerDriveBack localPath.data)
  let hit := findMapping
    (fun kv =>
      notDotDot (if platformIsWindows then winRelative cwd.data kv.2.data localPath.data
                 else posixRelative kv.2.data localPath.data))
    pathMapping
  match hit with
  | some (sroot0, lroot0) =>
    let lroot := if lroot0 ≠ "" then lowerDriveBack lroot0.data else lroot0.data
    let sroot := if sroot0 ≠ "" then lowerDriveBack sroot0.data else sroot0.data
    if sroot ≠ [] ∧ lroot ≠ [] then
      let lsu := fileUrl lroot
      let lsu := if lsu.getLast? = some '/' then lsu else lsu ++ ['/']
      let ssu := fileUrl sroot
      let ssu := if ssu.getLast? = some '/' then ssu else ssu ++ ['/']
      String.mk (urlResolve ssu (relativeUrl lsu localFileUri))
    else String.mk localFileUri
  | none => String.mk localFileUri

/-- `isWindowsUri` (src/paths.ts:116-118): `/^file:\/\/\/[a-zA-Z]:\//`. -/
def isWindowsUri (p : String) : Bool :=
  decide (p.data.take 8 = "file:///".data) &&
    (match p.data.drop 8 with
     | c :: r => asciiLetter c && decide (r.take 2 = [':', '/'])
     | [] => false)

/-- `isSameUri` (src/paths.ts:120-127). -/
def isSameUri (clientUri debuggerUri : String) : Bool :=
  if isWindowsUri clientUri || isWindowsUri debuggerUri then
    jsLower debuggerUri.data == jsLower clientUri.data
  else debuggerUri == clientUri

/-! ## Spec-side definitions used to compare code behaviour with the spec's
wording -/

/-- Modelled from the spec: «matches the Windows-file-URI pattern
`^file:\/\/\/[A-Za-z]:\/`» — the string is `file:///`, an ASCII letter,
`:/`, then anything. -/
def specWindowsUriShape (s : String) : Prop :=
  ∃ c r, asciiLetter c = true ∧ s.data = "file:///".data ++ c :: ':' :: '/' :: r

/-- Modelled from the spec: «serverPath is at or below mappedServerPath» in
the directory tree — the resolved segments of the root are a segment-list
prefix of those of the path. -/
def specAtOrBelow (root p : Str) : Bool :=
  (resolveSegsA (splitOnChar '/' root)).isPrefixOf (resolveSegsA (splitOnChar '/' p))

/-- Whether the first remaining segment itself begins with two literal dots
(e.g. `..b`), the case the source's `indexOf('..') !== 0` test also rejects. -/
def firstSegUp : List Str → Bool
  | [] => false
  | h :: _ => ['.', '.'].isPrefixOf h

/-- Modelled from the spec: «serverPath is at or below mappedServerPath» for
the Windows path algebra — the two resolve to the same device and the
root's resolved segments are a prefix of the path's, both compared
case-insensitively as `path.win32` does. -/
def specAtOrBelowWin (cwd root p : Str) : Bool :=
  let (rd, rs) := winResolveParts cwd [root]
  let (pd, ps) := winResolveParts cwd [p]
  jsLower rd == jsLower pd && (lowerSegs rs).isPrefixOf (lowerSegs ps)

/-- An absolute `file://` URL with empty authority built from directory
segments and a filename (`[]` for a directory URL): the shape `fileUrl`
produces for absolute POSIX paths. -/
def mkFileUrl (dirs : List Str) (fname : Str) : Str :=
  "file://".data ++ '/' :: joinSep '/' (dirs ++ [fname])

/-- A plain URL path segment: nonempty, no separator, query, fragment or
colon characters, and not a dot segment. -/
def urlSeg (s : Str) : Bool :=
  decide (s ≠ []) && decide ('/' ∉ s) && decide ('?' ∉ s) && decide ('#' ∉ s) &&
    decide (':' ∉ s) && decide (s ≠ ['.']) && decide (s ≠ ['.', '.'])

/-- A plain URL filename: like `urlSeg` but possibly empty (a directory
URL's trailing slash). -/
def urlName (s : Str) : Bool :=
  decide ('/' ∉ s) && decide ('?' ∉ s) && decide ('#' ∉ s) &&
    decide (':' ∉ s) && decide (s ≠ ['.']) && decide (s ≠ ['.', '.'])

/-! ## Theorems: the claims -/

set_option maxRecDepth 16384

/-- C1: with the mapping `{"/var/www": "/home/user/project"}`,
`convertDebuggerPathToClient` applied to `file:///var/www/src/a.php` on a
POSIX client returns `/home/user/project/src/a.php` in native (POSIX)
separator form, for every working directory. -/
theorem C1_server_to_client_mapped_root (cwd : String) :
    convertDebuggerPathToClient false cwd "file:///var/www/src/a.php"
      [("/var/www", "/home/user/project")] = "/home/user/project/src/a.php" := rfl

/-- C2: with the mapping `{"/var/www": "/home/user/project"}`,
`convertClientPathToDebugger` applied to `/home/user/project/src/a.php` on a
POSIX client returns exactly `file:///var/www/src/a.php`, for every working
directory. -/
theorem C2_client_to_server_mapped_root (cwd : String) :
    convertClientPathToDebugger false cwd "/home/user/project/src/a.php"
      [("/var/www", "/home/user/project")] = "file:///var/www/src/a.php" := rfl

/-- C4: both conversion functions take the mapping entries in their given
order and use the first whose relative-path test passes: with keys supplied
as `["/var/www/sub", "/var/www"]` the more specific first entry maps
`/var/www/sub/x.php`, and reversing the order makes the broader entry win
(so the selection is by position, not by specificity); the same holds for
`convertClientPathToDebugger` over the mapped local roots. -/
theorem C4_first_match_wins (cwd : String) :
    convertDebuggerPathToClient false cwd "file:///var/www/sub/x.php"
        [("/var/www/sub", "/LA"), ("/var/www", "/LB")] = "/LA/x.php" ∧
    convertDebuggerPathToClient false cwd "file:///var/www/sub/x.php"
        [("/var/www", "/LB"), ("/var/www/sub", "/LA")] = "/LB/sub/x.php" ∧
    convertClientPathToDebugger false cwd "/home/p/sub/x.php"
        [("/S1", "/home/p/sub"), ("/S2", "/home/p")] = "file:///S1/x.php" ∧
    convertClientPathToDebugger false cwd "/home/p/sub/x.php"
        [("/S2", "/home/p"), ("/S1", "/home/p/sub")] = "file:///S2/sub/x.php" :=
  ⟨rfl, rfl, rfl, rfl⟩

/-- C5 counterexample: `convertClientPathToDebugger` on a `localPath` equal
to the mapped local source (no trailing slash) does NOT return the
server-source URI with its trailing slash: relateurl relativizes
`file:///home/user/project` against the directory URL
`file:///home/user/project/` as `../project`, so the result is
`file:///var/project`, not `file:///var/www/` (nor `file:///var/www`). -/
theorem C5_counterexample :
    convertClientPathToDebugger false "/" "/home/user/project"
        [("/var/www", "/home/user/project")] = "file:///var/project" ∧
    convertClientPathToDebugger false "/" "/home/user/project"
        [("/var/www", "/home/user/project")] ≠ "file:///var/www/" ∧
    convertClientPathToDebugger false "/" "/home/user/project"
        [("/var/www", "/home/user/project")] ≠ "file:///var/www" :=
  ⟨rfl, by decide, by decide⟩

/-- C5 amended: a decoded server path exactly equal to a mapped server
prefix yields the mapped client root itself under
`convertDebuggerPathToClient`; for `convertClientPathToDebugger` the
exact-root case yields the server-source URI with its trailing slash only
when the local path (and hence its file URL) itself ends with a slash —
without one, the relative reference is `../<last segment>` and the result
resolves to a sibling of the server root (`file:///var/project`). -/
theorem C5_amended_exact_root (cwd : String) :
    convertDebuggerPathToClient false cwd "file:///var/www"
        [("/var/www", "/home/user/project")] = "/home/user/project" ∧
    convertClientPathToDebugger false cwd "/home/user/project/"
        [("/var/www", "/home/user/project/")] = "file:///var/www/" ∧
    convertClientPathToDebugger false cwd "/home/user/project"
        [("/var/www", "/home/user/project")] = "file:///var/project" :=
  ⟨rfl, rfl, rfl⟩

/-- C7 counterexample: with the spec's mapping key `/C:/inetpub` (leading
slash kept), the decoded server path is stripped to `C:/inetpub/...`,
`path.win32.relative` resolves the key against the working directory to
`C:\C:\inetpub`, no mapping entry matches, and the result is the normalized
`C:\inetpub\site\index.php` — not a path under `C:\wamp\www`. -/
theorem C7_counterexample :
    convertDebuggerPathToClient true "C:\\cwd" "file:///C:/inetpub/site/index.php"
        [("/C:/inetpub", "C:\\wamp\\www")] = "C:\\inetpub\\site\\index.php" ∧
    "C:\\wamp\\www".data.isPrefixOf
        (convertDebuggerPathToClient true "C:\\cwd" "file:///C:/inetpub/site/index.php"
          [("/C:/inetpub", "C:\\wamp\\www")]).data = false :=
  ⟨rfl, by decide⟩

/-- C7 amended: with the mapping key written without the leading slash,
`{"C:/inetpub": "C:\wamp\www"}`, the Windows server path maps to
`C:\wamp\www\site\index.php`; and the drive letter of the key is compared
case-insensitively — a lowercase `c:/inetpub` key matches the same
`file:///C:/inetpub/...` URI. -/
theorem C7_amended_windows_drive :
    convertDebuggerPathToClient true "C:\\cwd" "file:///C:/inetpub/site/index.php"
        [("C:/inetpub", "C:\\wamp\\www")] = "C:\\wamp\\www\\site\\index.php" ∧
    convertDebuggerPathToClient true "C:\\cwd" "file:///C:/inetpub/site/index.php"
        [("c:/inetpub", "C:\\wamp\\www")] = "C:\\wamp\\www\\site\\index.php" :=
  ⟨rfl, rfl⟩

/-- C8: `convertClientPathToDebugger` lowercases Windows drive-letter
prefixes before building URIs: without a mapping the input's drive letter is
lowercased in the produced URI (`C:\Users\me\index.php` ↦
`file:///c:/Users/me/index.php`, on either client platform and any working
directory), and when a mapping entry matches, the `C:\`-prefixes of both the
matched local source and the matched server path are lowercased before the
roots become URIs (`file:///c:/www/x.php`). -/
theorem C8_drive_letter_lowercased (platformIsWindows : Bool) (cwd : String) :
    convertClientPathToDebugger platformIsWindows cwd "C:\\Users\\me\\index.php" [] =
      "file:///c:/Users/me/index.php" ∧
    convertClientPathToDebugger true "C:\\base" "C:\\Users\\me\\proj\\x.php"
        [("C:\\www", "C:\\Users\\me\\proj")] = "file:///c:/www/x.php" :=
  ⟨rfl, rfl⟩

/-- C9 counterexample: the relativization helper does not always produce a
reference that resolves back to `to`: relateurl's default
`removeDirectoryIndexes` drops a final `index.html` segment, so relating
`file:///a/index.html` to the base `file:///a/b/` yields `../`, which
resolves to `file:///a/`, not to the original URI. -/
theorem C9_counterexample :
    relativeUrl "file:///a/b/".data "file:///a/index.html".data = "../".data ∧
    urlResolve "file:///a/b/".data
        (relativeUrl "file:///a/b/".data "file:///a/index.html".data) = "file:///a/".data ∧
    "file:///a/".data ≠ "file:///a/index.html".data :=
  ⟨rfl, rfl, by decide⟩

/-- C10: the output of `convertDebuggerPathToClient` depends only on the
parsed (then percent-decoded) path component of the input URI: two URI
strings whose parsed pathnames agree convert identically for every platform,
working directory and mapping — host, query and fragment are discarded. -/
theorem C10_pathname_only (platformIsWindows : Bool) (cwd u1 u2 : String)
    (m : List (String × String))
    (h : (urlParse u1.data).pathname = (urlParse u2.data).pathname) :
    convertDebuggerPathToClient platformIsWindows cwd u1 m =
      convertDebuggerPathToClient platformIsWindows cwd u2 m := by
  simp only [convertDebuggerPathToClient]
  rw [h]

/-- C10 witness: `file://hostA/var/www/x.php?q=1` and
`file:///var/www/x.php#frag` have the same parsed pathname and convert to
the same client path. -/
theorem C10_pathname_only_witness :
    convertDebuggerPathToClient false "/" "file://hostA/var/www/x.php?q=1"
        [("/var/www", "/L")] =
      convertDebuggerPathToClient false "/" "file:///var/www/x.php#frag"
        [("/var/www", "/L")] :=
  C10_pathname_only false "/" "file://hostA/var/www/x.php?q=1"
    "file:///var/www/x.php#frag" [("/var/www", "/L")] (by decide)

/-- C3: `isSameUri` compares the fully-lowercased strings for equality
whenever at least one URI matches the Windows-file-URI pattern
`^file:///[A-Za-z]:/` (characterized exactly by `specWindowsUriShape`), and
compares exactly otherwise; in particular
`isSameUri "file:///C:/Foo/Bar.php" "file:///c:/foo/bar.php"` is true and
`isSameUri "file:///home/Foo.php" "file:///home/foo.php"` is false. -/
theorem C3_isSameUri_rule :
    (∀ s, isWindowsUri s = true ↔ specWindowsUriShape s) ∧
    (∀ a b, (isWindowsUri a || isWindowsUri b) = true →
        (isSameUri a b = true ↔ jsLower a.data = jsLower b.data)) ∧
    (∀ a b, (isWindowsUri a || isWindowsUri b) = false →
        (isSameUri a b = true ↔ a = b)) ∧
    isSameUri "file:///C:/Foo/Bar.php" "file:///c:/foo/bar.php" = true ∧
    isSameUri "file:///home/Foo.php" "file:///home/foo.php" = false := by
  refine ⟨?_, ?_, ?_, by decide, by decide⟩
  · intro s
    constructor
    · intro h
      unfold isWindowsUri at h
      rw [Bool.and_eq_true, decide_eq_true_eq] at h
      obtain ⟨h1, h2⟩ := h
      cases hd : s.data.drop 8 with
      | nil => rw [hd] at h2; cases h2
      | cons c r =>
        rw [hd, Bool.and_eq_true, decide_eq_true_eq] at h2
        obtain ⟨hc, hr⟩ := h2
        refine ⟨c, r.drop 2, hc, ?_⟩
        have hsplit := (List.take_append_drop 8 s.data).symm
        rw [h1, hd] at hsplit
        rw [hsplit]
        have hr2 := (List.take_append_drop 2 r).symm
        rw [hr] at hr2
        rw [hr2]
        rfl
    · rintro ⟨c, r, hc, hs⟩
      unfold isWindowsUri
      rw [hs, Bool.and_eq_true, decide_eq_true_eq]
      constructor
      · exact List.take_left' rfl
      · rw [List.drop_left' (by rfl)]
        rw [Bool.and_eq_true, decide_eq_true_eq]
        exact ⟨hc, rfl⟩
  · intro a b h
    unfold isSameUri
    rw [if_pos h]
    rw [beq_iff_eq]
    exact eq_comm
  · intro a b h
    unfold isSameUri
    rw [if_neg (by simp [h])]
    rw [beq_iff_eq]
    exact eq_comm

/-- The common segment prefix is no longer than the first list. -/
theorem commonPrefixLen_le_left : ∀ (a b : List Str), commonPrefixLen a b ≤ a.length := by
  intro a
  induction a with
  | nil => intro b; cases b <;> simp [commonPrefixLen]
  | cons x xs ih =>
    intro b
    cases b with
    | nil => simp [commonPrefixLen]
    | cons y ys =>
      unfold commonPrefixLen
      by_cases h : x = y
      · rw [if_pos h]
        simpa using ih ys
      · rw [if_neg h]
        exact Nat.zero_le _

/-- A segment list is a prefix of another exactly when their common prefix
exhausts it. -/
theorem isPrefixOf_iff_cpl : ∀ (a b : List Str),
    a.isPrefixOf b = true ↔ commonPrefixLen a b = a.length := by
  intro a
  induction a with
  | nil => intro b; cases b <;> simp [commonPrefixLen, List.isPrefixOf]
  | cons x xs ih =>
    intro b
    cases b with
    | nil => simp [commonPrefixLen, List.isPrefixOf]
    | cons y ys =>
      unfold commonPrefixLen
      rw [show (x :: xs).isPrefixOf (y :: ys) = (x == y && xs.isPrefixOf ys) from rfl]
      by_cases h : x = y
      · rw [if_pos h]
        simp only [h, beq_self_eq_true, Bool.true_and, List.length_cons]
        rw [ih ys]
        omega
      · rw [if_neg h]
        simp only [List.length_cons]
        constructor
        · intro hh
          rw [Bool.and_eq_true, beq_iff_eq] at hh
          exact absurd hh.1 h
        · omega

/-- `..` starts a slash-joined segment list exactly when it starts the first
segment. -/
theorem ddPref_join (h : Str) (t : List Str) :
    ['.', '.'].isPrefixOf (joinSep '/' (h :: t)) = ['.', '.'].isPrefixOf h := by
  cases t with
  | nil => rfl
  | cons b t =>
    show ['.', '.'].isPrefixOf (h ++ '/' :: joinSep '/' (b :: t)) = _
    match h with
    | [] => simp [List.isPrefixOf]
    | [x] => simp [List.isPrefixOf]
    | x :: y :: h' => simp [List.isPrefixOf]

/-- C6 counterexample: the selection test is not equivalent to "at or below
the mapped root": `/a/..b/c.php` is below `/a`, yet
`path.posix.relative("/a", "/a/..b/c.php") = "..b/c.php"` starts with the
characters `..`, so the test rejects the key and the conversion falls back
to the unmapped normalize branch. -/
theorem C6_counterexample :
    notDotDot (posixRelative "/a".data "/a/..b/c.php".data) = false ∧
    specAtOrBelow "/a".data "/a/..b/c.php".data = true ∧
    convertDebuggerPathToClient false "/" "file:///a/..b/c.php" [("/a", "/L")] =
      "/a/..b/c.php" := by
  exact ⟨rfl, rfl, rfl⟩

/-- C6 amended: on the POSIX algebra branch the code's selection test
`relative(key, path)` not starting with `..` holds, for every key and path,
iff the path is at or below the key AND the first remaining segment does
not itself begin with two literal dots (a `..b`-style segment below the
root is wrongly rejected).  On the Windows algebra branch even the forward
implication fails: for a key on a different drive, `path.win32.relative`
returns the resolved absolute path, which does not start with `..`, so the
test accepts the key although the path is not at or below it — the loop
then selects the cross-drive entry (`D:\www` for server path `C:/x`) and
the conversion returns the unmapped absolute path. -/
theorem C6_amended_selection :
    (∀ root p : Str,
      notDotDot (posixRelative root p) =
        (specAtOrBelow root p &&
          !firstSegUp ((resolveSegsA (splitOnChar '/' p)).drop
            (resolveSegsA (splitOnChar '/' root)).length))) ∧
    notDotDot (winRelative "C:\\cwd".data "D:\\www".data "C:/x".data) = true ∧
    specAtOrBelowWin "C:\\cwd".data "D:\\www".data "C:/x".data = false ∧
    convertDebuggerPathToClient true "C:\\cwd" "file:///C:/x"
        [("D:\\www", "D:\\local")] = "C:\\x" := by
  refine ⟨?_, rfl, rfl, rfl⟩
  intro root p
  unfold notDotDot posixRelative specAtOrBelow
  simp only []
  set fs := resolveSegsA (splitOnChar '/' root) with hfs
  set ts := resolveSegsA (splitOnChar '/' p) with hts
  by_cases hk : commonPrefixLen fs ts = fs.length
  · have hpre : fs.isPrefixOf ts = true := (isPrefixOf_iff_cpl fs ts).mpr hk
    rw [hpre, Bool.true_and, hk, Nat.sub_self, List.replicate_zero, List.nil_append]
    cases hdrop : ts.drop fs.length with
    | nil => rfl
    | cons h t =>
      rw [ddPref_join]
      rfl
  · have hlt : commonPrefixLen fs ts < fs.length :=
      Nat.lt_of_le_of_ne (commonPrefixLen_le_left fs ts) hk
    have hpre : fs.isPrefixOf ts = false := by
      cases hp : fs.isPrefixOf ts
      · rfl
      · exact absurd ((isPrefixOf_iff_cpl fs ts).mp hp) hk
    rw [hpre, Bool.false_and]
    have hrep : fs.length - commonPrefixLen fs ts =
        (fs.length - commonPrefixLen fs ts - 1) + 1 := by
      omega
    rw [hrep, List.replicate_succ, List.cons_append, ddPref_join]
    rfl


/-- Splitting never yields the empty list of segments. -/
theorem splitOnChar_ne_nil (sep : Char) : ∀ l : Str, splitOnChar sep l ≠ [] := by
  intro l
  induction l with
  | nil => simp [splitOnChar]
  | cons c rest ih =>
    unfold splitOnChar
    cases hs : splitOnChar sep rest with
    | nil => exact absurd hs ih
    | cons s ss =>
      by_cases h : c = sep <;> simp [h]

/-- Splitting after a leading separator peels off one empty segment. -/
theorem splitOnChar_cons_sep (sep : Char) (l : Str) :
    splitOnChar sep (sep :: l) = [] :: splitOnChar sep l := by
  cases hs : splitOnChar sep l with
  | nil => exact absurd hs (splitOnChar_ne_nil sep l)
  | cons s ss =>
    conv_lhs => rw [splitOnChar]
    rw [hs]
    simp

/-- A separator-free string splits to itself. -/
theorem splitOnChar_no_sep (sep : Char) : ∀ x : Str, sep ∉ x → splitOnChar sep x = [x] := by
  intro x
  induction x with
  | nil => intro _; rfl
  | cons c rest ih =>
    intro h
    have hc : c ≠ sep := fun hh => h (hh ▸ List.mem_cons_self c rest)
    have hrest : sep ∉ rest := fun hh => h (List.mem_cons_of_mem c hh)
    unfold splitOnChar
    rw [ih hrest]
    simp [hc]

/-- Prepending separator-free characters extends the first segment. -/
theorem splitOnChar_append_no_sep (sep : Char) : ∀ (x l : Str) (s : Str) (ss : List Str),
    sep ∉ x → splitOnChar sep l = s :: ss →
    splitOnChar sep (x ++ l) = (x ++ s) :: ss := by
  intro x
  induction x with
  | nil => intro l s ss _ h; simpa using h
  | cons c rest ih =>
    intro l s ss hmem hl
    have hc : c ≠ sep := fun hh => hmem (hh ▸ List.mem_cons_self c rest)
    have hrest : sep ∉ rest := fun hh => hmem (List.mem_cons_of_mem c hh)
    rw [List.cons_append]
    unfold splitOnChar
    rw [ih l s ss hrest hl]
    simp [hc]

/-- Splitting is a left inverse of joining separator-free segments. -/
theorem splitOnChar_joinSep (sep : Char) : ∀ xs : List Str, xs ≠ [] →
    (∀ s ∈ xs, sep ∉ s) → splitOnChar sep (joinSep sep xs) = xs := by
  intro xs
  induction xs with
  | nil => intro h; exact absurd rfl h
  | cons x rest ih =>
    intro _ hmem
    cases rest with
    | nil =>
      show splitOnChar sep x = [x]
      exact splitOnChar_no_sep sep x (hmem x (List.mem_cons_self x []))
    | cons b t =>
      show splitOnChar sep (x ++ sep :: joinSep sep (b :: t)) = x :: b :: t
      have hrec : splitOnChar sep (joinSep sep (b :: t)) = b :: t := by
        refine ih (by simp) ?_
        intro s hs
        exact hmem s (List.mem_cons_of_mem x hs)
      have hsep : splitOnChar sep (sep :: joinSep sep (b :: t)) = [] :: b :: t := by
        rw [splitOnChar_cons_sep, hrec]
      have := splitOnChar_append_no_sep sep x (sep :: joinSep sep (b :: t)) [] (b :: t)
        (hmem x (List.mem_cons_self x _)) hsep
      simpa using this

/-- Joining distributes over the append of nonempty segment lists. -/
theorem joinSep_append (sep : Char) : ∀ (A B : List Str), A ≠ [] → B ≠ [] →
    joinSep sep (A ++ B) = joinSep sep A ++ sep :: joinSep sep B := by
  intro A
  induction A with
  | nil => intro B h _; exact absurd rfl h
  | cons a A' ih =>
    intro B _ hB
    cases A' with
    | nil =>
      cases B with
      | nil => exact absurd rfl hB
      | cons b t => rfl
    | cons a2 A'' =>
      show joinSep sep (a :: (a2 :: A'') ++ B) = (a ++ sep :: joinSep sep (a2 :: A'')) ++ sep :: joinSep sep B
      rw [show joinSep sep (a :: (a2 :: A'') ++ B) = a ++ sep :: joinSep sep ((a2 :: A'') ++ B) from rfl]
      rw [ih B (by simp) hB]
      simp

/-- Every character of a join is the separator or lies in some segment. -/
theorem mem_joinSep (sep : Char) : ∀ (l : List Str) (c : Char), c ∈ joinSep sep l →
    c = sep ∨ ∃ s ∈ l, c ∈ s := by
  intro l
  induction l with
  | nil => intro c h; simp [joinSep] at h
  | cons x rest ih =>
    intro c h
    cases rest with
    | nil =>
      right
      exact ⟨x, List.mem_cons_self x [], h⟩
    | cons b t =>
      rw [show joinSep sep (x :: b :: t) = x ++ sep :: joinSep sep (b :: t) from rfl] at h
      rcases List.mem_append.mp h with hx | hs
      · right; exact ⟨x, List.mem_cons_self x _, hx⟩
      · rcases List.mem_cons.mp hs with hc | hj
        · left; exact hc
        · rcases ih c hj with hc | ⟨s, hs1, hs2⟩
          · left; exact hc
          · right; exact ⟨s, List.mem_cons_of_mem x hs1, hs2⟩

/-- When no character satisfies the predicate, the whole string is taken. -/
theorem spanUntil_all_false (p : Char → Bool) : ∀ l : Str, (∀ c ∈ l, p c = false) →
    spanUntil p l = (l, []) := by
  intro l
  induction l with
  | nil => intro _; rfl
  | cons c rest ih =>
    intro h
    unfold spanUntil
    rw [h c (List.mem_cons_self c rest)]
    rw [ih (fun d hd => h d (List.mem_cons_of_mem c hd))]
    simp

/-- Segments that are not dot segments are appended unchanged by the RFC merge. -/
theorem rfc_push_all : ∀ (l : List Str) (acc : List Str),
    (∀ s ∈ l, s ≠ ['.'] ∧ s ≠ ['.', '.']) → List.foldl rfcStep acc l = acc ++ l := by
  intro l
  induction l with
  | nil => intro acc _; simp
  | cons s rest ih =>
    intro acc h
    obtain ⟨h1, h2⟩ := h s (List.mem_cons_self s rest)
    rw [List.foldl_cons]
    rw [show rfcStep acc s = acc ++ [s] from by unfold rfcStep; rw [if_neg h1, if_neg h2]]
    rw [ih (acc ++ [s]) (fun d hd => h d (List.mem_cons_of_mem s hd))]
    simp

/-- Each `..` segment pops one accumulated segment. -/
theorem rfc_pops : ∀ (k : Nat) (acc : List Str),
    List.foldl rfcStep acc (List.replicate k ['.', '.']) = acc.take (acc.length - k) := by
  intro k
  induction k with
  | zero => intro acc; simp
  | succ n ih =>
    intro acc
    rw [List.replicate_succ, List.foldl_cons]
    rw [show rfcStep acc ['.', '.'] = acc.dropLast from by unfold rfcStep; simp]
    rw [ih acc.dropLast]
    rw [List.dropLast_eq_take, List.length_take, List.take_take]
    have h1 : min (acc.length - 1) acc.length = acc.length - 1 :=
      Nat.min_eq_left (Nat.sub_le _ _)
    rw [h1]
    have h2 : min (acc.length - 1 - n) (acc.length - 1) = acc.length - (n + 1) := by
      rw [Nat.min_eq_left (Nat.sub_le _ _)]
      omega
    rw [h2]

/-- The common segment prefix is no longer than the second list. -/
theorem commonPrefixLen_le_right : ∀ (a b : List Str), commonPrefixLen a b ≤ b.length := by
  intro a
  induction a with
  | nil => intro b; cases b <;> simp [commonPrefixLen]
  | cons x xs ih =>
    intro b
    cases b with
    | nil => simp [commonPrefixLen]
    | cons y ys =>
      unfold commonPrefixLen
      by_cases h : x = y
      · rw [if_pos h]
        simpa using ih ys
      · rw [if_neg h]
        exact Nat.zero_le _

/-- Both lists agree on their common prefix. -/
theorem commonPrefixLen_take : ∀ (a b : List Str),
    a.take (commonPrefixLen a b) = b.take (commonPrefixLen a b) := by
  intro a
  induction a with
  | nil => intro b; cases b <;> simp [commonPrefixLen]
  | cons x xs ih =>
    intro b
    cases b with
    | nil => simp [commonPrefixLen]
    | cons y ys =>
      unfold commonPrefixLen
      by_cases h : x = y
      · rw [if_pos h]
        simp only [List.take_succ_cons, h]
        rw [ih ys]
      · rw [if_neg h]
        simp

/-- A pathname that ends in a slash is its own directory name. -/
theorem dirnameSlash_of_slash (q : Str) : dirnameSlash (q ++ ['/']) = q ++ ['/'] := by
  unfold dirnameSlash
  rw [List.reverse_append]
  simp [List.dropWhile]

theorem urlParse_mkFileUrl (dirs : List Str) (fn : Str)
    (h : ∀ c ∈ joinSep '/' (dirs ++ [fn]), (c == '?' || c == '#') = false) :
    urlParse (mkFileUrl dirs fn) =
      ⟨"file".data, [], '/' :: joinSep '/' (dirs ++ [fn]), [], []⟩ := by
  unfold urlParse
  rw [show splitScheme (mkFileUrl dirs fn) =
      some ("file".data, '/' :: joinSep '/' (dirs ++ [fn])) from rfl]
  simp only []
  rw [show spanUntil (fun c => c == '/' || c == '?' || c == '#')
        ('/' :: joinSep '/' (dirs ++ [fn])) =
      ([], '/' :: joinSep '/' (dirs ++ [fn])) from rfl]
  simp only []
  have hpath : spanUntil (fun c => c == '?' || c == '#')
      ('/' :: joinSep '/' (dirs ++ [fn])) = ('/' :: joinSep '/' (dirs ++ [fn]), []) := by
    apply spanUntil_all_false
    intro c hc
    rcases List.mem_cons.mp hc with h1 | h2
    · rw [h1]; rfl
    · exact h c h2
  rw [hpath]
  rfl

/-- The properties packed into `urlSeg`. -/
theorem urlSeg_props {s : Str} (h : urlSeg s = true) :
    s ≠ [] ∧ '/' ∉ s ∧ '?' ∉ s ∧ '#' ∉ s ∧ ':' ∉ s ∧ s ≠ ['.'] ∧ s ≠ ['.', '.'] := by
  simp only [urlSeg, Bool.and_eq_true, decide_eq_true_eq] at h
  tauto

/-- The properties packed into `urlName`. -/
theorem urlName_props {s : Str} (h : urlName s = true) :
    '/' ∉ s ∧ '?' ∉ s ∧ '#' ∉ s ∧ ':' ∉ s ∧ s ≠ ['.'] ∧ s ≠ ['.', '.'] := by
  simp only [urlName, Bool.and_eq_true, decide_eq_true_eq] at h
  tauto

/-- A shared leading root segment adds one to the common prefix length. -/
theorem cpl_cons_nil_nil (a b : List Str) :
    commonPrefixLen ([] :: a) ([] :: b) = commonPrefixLen a b + 1 := by
  simp [commonPrefixLen]

/-- Splitting an absolute pathname built from directories and a filename
recovers them (with the root as a leading empty directory). -/
theorem dirsAndFile_slash_join (dirs : List Str) (fname : Str)
    (hdirs : ∀ s ∈ dirs, '/' ∉ s) (hf : '/' ∉ fname) :
    dirsAndFile ('/' :: joinSep '/' (dirs ++ [fname])) = ([] :: dirs, fname) := by
  unfold dirsAndFile
  have hshape : ('/' : Char) :: joinSep '/' (dirs ++ [fname]) =
      joinSep '/' (([] : Str) :: (dirs ++ [fname])) := by
    cases hd : dirs ++ [fname] with
    | nil => simp at hd
    | cons x t => rfl
  rw [hshape]
  rw [splitOnChar_joinSep '/' (([] : Str) :: (dirs ++ [fname])) (by simp) ?hmem]
  case hmem =>
    intro s hs
    rcases List.mem_cons.mp hs with h1 | h2
    · rw [h1]; simp
    · rcases List.mem_append.mp h2 with h3 | h4
      · exact hdirs s h3
      · rw [List.mem_singleton.mp h4]; exact hf
  simp only [List.getLastD_eq_getLast?]
  rw [Prod.mk.injEq]
  constructor
  · rw [← List.cons_append]
    exact List.dropLast_concat
  · rw [← List.cons_append, List.getLast?_concat]
    rfl

/-- A pathname built from plain segments has no query or fragment characters. -/
theorem joinSep_no_qh (dirs : List Str) (fname : Str)
    (hdirs : ∀ s ∈ dirs, urlSeg s = true) (hf : urlName fname = true) :
    ∀ c ∈ joinSep '/' (dirs ++ [fname]), (c == '?' || c == '#') = false := by
  intro c hc
  rcases mem_joinSep '/' _ c hc with h1 | ⟨s, hs1, hs2⟩
  · rw [h1]; rfl
  · have hno : '?' ∉ s ∧ '#' ∉ s := by
      rcases List.mem_append.mp hs1 with h3 | h4
      · obtain ⟨_, _, hq, hh, _⟩ := urlSeg_props (hdirs s h3)
        exact ⟨hq, hh⟩
      · rw [List.mem_singleton.mp h4]
        obtain ⟨_, hq, hh, _⟩ := urlName_props hf
        exact ⟨hq, hh⟩
    have h5 : c ≠ '?' := fun e => hno.1 (e ▸ hs2)
    have h6 : c ≠ '#' := fun e => hno.2 (e ▸ hs2)
    simp [h5, h6]

/-- On same-authority `file:///` URLs built from plain segments (filename not
a directory index), `relativeUrl` computes relateurl's `../`-climb followed
by the descent and the filename. -/
theorem relativeUrl_mkFileUrl (fd td : List Str) (fn : Str)
    (hfd : ∀ s ∈ fd, urlSeg s = true) (htd : ∀ s ∈ td, urlSeg s = true)
    (hfn : urlName fn = true) (hidx : fn ≠ "index.html".data) :
    relativeUrl (mkFileUrl fd []) (mkFileUrl td fn) =
      joinSep '/' (List.replicate (fd.length - commonPrefixLen fd td) ['.', '.'] ++
        td.drop (commonPrefixLen fd td) ++ [fn]) := by
  unfold relativeUrl
  rw [urlParse_mkFileUrl fd [] (joinSep_no_qh fd [] hfd (by decide)),
      urlParse_mkFileUrl td fn (joinSep_no_qh td fn htd hfn)]
  simp only []
  rw [if_neg (by simp)]
  rw [dirsAndFile_slash_join fd [] (fun s hs => ((urlSeg_props (hfd s hs)).2).1) (by simp),
      dirsAndFile_slash_join td fn (fun s hs => ((urlSeg_props (htd s hs)).2).1)
        (urlName_props hfn).1]
  simp only []
  rw [if_neg hidx]
  unfold relateSegs
  rw [cpl_cons_nil_nil]
  simp only [List.length_cons, List.drop_succ_cons, List.append_nil]
  have hlen : fd.length + 1 - (commonPrefixLen fd td + 1) = fd.length - commonPrefixLen fd td := by
    omega
  rw [hlen]

/-- A string without a colon has no scheme. -/
theorem splitScheme_no_colon : ∀ l : Str, ':' ∉ l → splitScheme l = none := by
  intro l
  induction l with
  | nil => intro _; rfl
  | cons c rest ih =>
    intro h
    have hc : c ≠ ':' := fun hh => h (hh ▸ List.mem_cons_self c rest)
    have hrest : ':' ∉ rest := fun hh => h (List.mem_cons_of_mem c hh)
    unfold splitScheme
    rw [if_neg (fun hh => hc hh.1)]
    by_cases hs : schemeChar c = true
    · rw [if_pos hs, ih hrest]
      rfl
    · rw [if_neg hs]

/-- A join is empty only for no segments or a single empty segment. -/
theorem joinSep_eq_nil (sep : Char) (L : List Str) (h : joinSep sep L = []) :
    L = [] ∨ L = [[]] := by
  match L with
  | [] => left; rfl
  | [x] =>
    right
    rw [show joinSep sep [x] = x from rfl] at h
    rw [h]
  | x :: b :: t =>
    rw [show joinSep sep (x :: b :: t) = x ++ sep :: joinSep sep (b :: t) from rfl] at h
    simp at h

/-- The head of a join starts the first (nonempty) segment. -/
theorem head?_joinSep_cons (sep : Char) (h : Str) (t : List Str) (hne : h ≠ []) :
    (joinSep sep (h :: t)).head? = h.head? := by
  cases t with
  | nil => rfl
  | cons b t2 =>
    show (h ++ sep :: joinSep sep (b :: t2)).head? = h.head?
    cases h with
    | nil => exact absurd rfl hne
    | cons c r => rfl

/-- C9 amended: for `file:///` URLs with the same (empty) authority built
from plain path segments — the base a directory URL, the target's filename
not the directory index `index.html` — resolving the reference computed by
the relativization helper against the base reproduces the target exactly
(trailing slash of a directory target included, since an empty filename is
reproduced); and the reference is never root-relative (it does not start
with `/`) nor scheme-absolute (it has no scheme).  The unamended universal
claim fails at directory indexes, which relateurl's default
`removeDirectoryIndexes` strips (see the counterexample). -/
theorem C9_amended_roundtrip (fd td : List Str) (fn : Str)
    (hfd : ∀ s ∈ fd, urlSeg s = true) (htd : ∀ s ∈ td, urlSeg s = true)
    (hfn : urlName fn = true) (hidx : fn ≠ "index.html".data) :
    urlResolve (mkFileUrl fd []) (relativeUrl (mkFileUrl fd []) (mkFileUrl td fn)) =
        mkFileUrl td fn ∧
    (relativeUrl (mkFileUrl fd []) (mkFileUrl td fn)).head? ≠ some '/' ∧
    splitScheme (relativeUrl (mkFileUrl fd []) (mkFileUrl td fn)) = none := by
  rw [relativeUrl_mkFileUrl fd td fn hfd htd hfn hidx]
  set c := commonPrefixLen fd td with hc
  set L := List.replicate (fd.length - c) ['.', '.'] ++ td.drop c ++ [fn] with hL
  have hcle : c ≤ fd.length := hc ▸ commonPrefixLen_le_left fd td
  have hcler : c ≤ td.length := hc ▸ commonPrefixLen_le_right fd td
  have hLne : L ≠ [] := by rw [hL]; simp
  have hLmem : ∀ s ∈ L, '/' ∉ s ∧ ':' ∉ s ∧ '?' ∉ s ∧ '#' ∉ s := by
    intro s hs
    rw [hL] at hs
    rcases List.mem_append.mp hs with hs1 | hs2
    · rcases List.mem_append.mp hs1 with hs3 | hs4
      · rw [List.eq_of_mem_replicate hs3]
        exact ⟨by simp, by simp, by simp, by simp⟩
      · obtain ⟨_, h1, h2, h3, h4, _⟩ := urlSeg_props (htd s (List.mem_of_mem_drop hs4))
        exact ⟨h1, h4, h2, h3⟩
    · rw [List.mem_singleton.mp hs2]
      obtain ⟨h1, h2, h3, h4, _⟩ := urlName_props hfn
      exact ⟨h1, h4, h2, h3⟩
  have hcolon : ':' ∉ joinSep '/' L := by
    intro hmem
    rcases mem_joinSep '/' L ':' hmem with h1 | ⟨s, hs1, hs2⟩
    · exact absurd h1 (by decide)
    · exact (hLmem s hs1).2.1 hs2
  have hss : splitScheme (joinSep '/' L) = none := splitScheme_no_colon _ hcolon
  have hhead : (joinSep '/' L).head? ≠ some '/' := by
    rw [hL]
    cases hk : fd.length - c with
    | succ n =>
      rw [List.replicate_succ, List.cons_append, List.cons_append]
      rw [head?_joinSep_cons '/' ['.', '.'] _ (by simp)]
      simp
    | zero =>
      rw [List.replicate_zero, List.nil_append]
      cases hd : td.drop c with
      | cons s rest =>
        rw [List.cons_append]
        have hsmem : s ∈ td.drop c := by rw [hd]; exact List.mem_cons_self s rest
        obtain ⟨hsne, hsl, _⟩ := urlSeg_props (htd s (List.mem_of_mem_drop hsmem))
        rw [head?_joinSep_cons '/' s _ hsne]
        cases s with
        | nil => exact absurd rfl hsne
        | cons c0 r =>
          have : c0 ≠ '/' := fun e => hsl (e ▸ List.mem_cons_self c0 r)
          simp [this]
      | nil =>
        rw [List.nil_append]
        obtain ⟨hsl, _⟩ := urlName_props hfn
        cases hfn0 : fn with
        | nil => simp [joinSep]
        | cons c0 r =>
          show (joinSep '/' [c0 :: r]).head? ≠ some '/'
          rw [show joinSep '/' [c0 :: r] = c0 :: r from rfl]
          have : c0 ≠ '/' := fun e => hsl (e ▸ (hfn0 ▸ List.mem_cons_self c0 r))
          simp [this]
  refine ⟨?_, hhead, hss⟩
  have hLslashfree : ∀ s ∈ fd ++ L, '/' ∉ s := by
    intro s hs
    rcases List.mem_append.mp hs with h1 | h2
    · exact ((urlSeg_props (hfd s h1)).2).1
    · exact (hLmem s h2).1
  by_cases hnil : joinSep '/' L = []
  · rw [hnil]
    rw [show urlResolve (mkFileUrl fd []) [] = mkFileUrl fd [] from by
      unfold urlResolve; rw [if_pos rfl]]
    rcases joinSep_eq_nil '/' L hnil with h1 | h1
    · exact absurd h1 hLne
    · have hlast : L.getLast? = some fn := by rw [hL]; exact List.getLast?_concat _
      have hfneq : fn = [] := by
        rw [h1] at hlast
        simpa using hlast.symm
      have hlen1 : L.length = 1 := by rw [h1]; rfl
      have hlen2 : (fd.length - c) + ((td.length - c) + 1) = 1 := by
        rw [hL] at hlen1
        simpa [List.length_append, List.length_replicate, List.length_drop] using hlen1
      have hcfd : c = fd.length := by omega
      have hctd : c = td.length := by omega
      have ht : fd.take c = td.take c := by rw [hc]; exact commonPrefixLen_take fd td
      have hfdtd : fd = td := by
        have h1' : fd.take c = fd := by rw [hcfd]; exact List.take_length fd
        have h2' : td.take c = td := by rw [hctd]; exact List.take_length td
        rw [← h1', ht, h2']
      rw [hfdtd, hfneq]
  · have hspan : spanUntil (fun ch => ch == '?' || ch == '#') (joinSep '/' L) =
        (joinSep '/' L, []) := by
      apply spanUntil_all_false
      intro ch hch
      rcases mem_joinSep '/' L ch hch with h1 | ⟨s, hs1, hs2⟩
      · rw [h1]; rfl
      · obtain ⟨_, _, hq, hh⟩ := hLmem s hs1
        have e1 : ch ≠ '?' := fun e => hq (e ▸ hs2)
        have e2 : ch ≠ '#' := fun e => hh (e ▸ hs2)
        simp [e1, e2]
    unfold urlResolve
    rw [if_neg hnil]
    rw [urlParse_mkFileUrl fd [] (joinSep_no_qh fd [] hfd (by decide))]
    rw [hss]
    simp only [Option.isSome_none, Bool.false_eq_true, if_false]
    rw [hspan]
    simp only []
    rw [if_neg hhead]
    have hdir : dirnameSlash ('/' :: joinSep '/' (fd ++ [([] : Str)])) =
        '/' :: joinSep '/' (fd ++ [([] : Str)]) := by
      cases fd with
      | nil => rfl
      | cons f0 frest =>
        rw [joinSep_append '/' (f0 :: frest) [[]] (by simp) (by simp)]
        rw [show joinSep '/' [([] : Str)] = [] from rfl]
        rw [show ('/' : Char) :: (joinSep '/' (f0 :: frest) ++ '/' :: ([] : Str)) =
            ('/' :: joinSep '/' (f0 :: frest)) ++ ['/'] from by simp]
        exact dirnameSlash_of_slash _
    rw [hdir]
    have hmergeL : ('/' :: joinSep '/' (fd ++ [([] : Str)])) ++ joinSep '/' L =
        '/' :: joinSep '/' (fd ++ L) := by
      cases hfd0 : fd with
      | nil =>
        rw [show joinSep '/' (([] : List Str) ++ [([] : Str)]) = [] from rfl]
        simp
      | cons f0 frest =>
        rw [joinSep_append '/' (f0 :: frest) [[]] (by simp) (by simp)]
        rw [joinSep_append '/' (f0 :: frest) L (by simp) hLne]
        rw [show joinSep '/' [([] : Str)] = [] from rfl]
        simp
    rw [hmergeL]
    rw [splitOnChar_cons_sep]
    rw [splitOnChar_joinSep '/' (fd ++ L)
      (fun h => hLne (List.append_eq_nil.mp h).2) hLslashfree]
    rw [if_pos (List.head?_cons : (([] : Str) :: (fd ++ L)).head? = some [])]
    rw [List.tail_cons]
    unfold resolveDotSegs
    have hlast2 : (fd ++ L).getLast? = some fn := by
      rw [hL, ← List.append_assoc]
      exact List.getLast?_concat _
    rw [hlast2]
    rw [if_neg (by
      obtain ⟨_, _, _, _, h5, h6⟩ := urlName_props hfn
      simp [h5, h6])]
    unfold rfcMergeSegs
    rw [hL, ← List.append_assoc]
    rw [List.foldl_append, List.foldl_append, List.foldl_append]
    rw [rfc_push_all fd [] (fun s hs => by
      obtain ⟨_, _, _, _, _, h6, h7⟩ := urlSeg_props (hfd s hs)
      exact ⟨h6, h7⟩)]
    rw [List.nil_append]
    rw [rfc_pops]
    have htake : fd.take (fd.length - (fd.length - c)) = td.take c := by
      have he : fd.length - (fd.length - c) = c := by omega
      rw [he, hc]
      exact commonPrefixLen_take fd td
    rw [htake]
    rw [rfc_push_all (td.drop c) (td.take c) (fun s hs => by
      obtain ⟨_, _, _, _, _, h6, h7⟩ := urlSeg_props (htd s (List.mem_of_mem_drop hs))
      exact ⟨h6, h7⟩)]
    rw [List.take_append_drop]
    rw [show List.foldl rfcStep td [fn] = td ++ [fn] from by
      rw [List.foldl_cons, List.foldl_nil]
      unfold rfcStep
      obtain ⟨_, _, _, _, h5, h6⟩ := urlName_props hfn
      rw [if_neg h5, if_neg h6]]
    rw [List.append_nil]
    rfl

/-- C9 witness: a concrete instance of the amended round trip, with base
`file:///a/b/` and target `file:///a/x/y.php`. -/
theorem C9_amended_roundtrip_witness :
    urlResolve (mkFileUrl ["a".data, "b".data] [])
        (relativeUrl (mkFileUrl ["a".data, "b".data] [])
          (mkFileUrl ["a".data, "x".data] "y.php".data)) =
      mkFileUrl ["a".data, "x".data] "y.php".data ∧
    (relativeUrl (mkFileUrl ["a".data, "b".data] [])
        (mkFileUrl ["a".data, "x".data] "y.php".data)).head? ≠ some '/' ∧
    splitScheme (relativeUrl (mkFileUrl ["a".data, "b".data] [])
        (mkFileUrl ["a".data, "x".data] "y.php".data)) = none :=
  C9_amended_roundtrip ["a".data, "b".data] ["a".data, "x".data] "y.php".data
    (by decide) (by decide) (by decide) (by decide)
end Paths
